import Mathlib

/-!
Verification development for the segment-aware time-remapping and cut-point
selection core of the hometube application (src/app/main.py, src/app/utils.py).

Python floats are modelled as exact rationals (ℚ); the algorithms under study
only use comparison, min/max, addition and subtraction, which are exact.
Python `int(x)` on a float truncates toward zero; it is modelled by `pyInt`.
Python strings are modelled as `List Char` where character-level processing
matters, and by Lean `String` for rendered output.
-/

namespace HomeTube

/-- A sponsor segment as consumed by the core: `{start, end, category}`.
The Python dict key `end` is a Lean keyword, hence field name `stop`. -/
structure Segment where
  start : ℚ
  stop : ℚ
  category : String

/-- A merged segment `{start, end, categories}` as produced by
`merge_overlaps` (categories is the sorted list of contributing categories). -/
structure MergedSegment where
  start : ℚ
  stop : ℚ
  categories : List String

/-- Model of Python `int(x)` applied to a float: truncation toward zero
(floor for non-negative values, ceiling for negative values). -/
def pyInt (q : ℚ) : ℤ := if 0 ≤ q then ⌊q⌋ else ⌈q⌉

/-- Ordering used by `sorted(segments, key=lambda x: x["start"])`. -/
def segLE (s t : Segment) : Prop := s.start ≤ t.start

instance : DecidableRel segLE := fun s t => inferInstanceAs (Decidable (s.start ≤ t.start))

instance : IsTotal Segment segLE := ⟨fun a b => le_total a.start b.start⟩

instance : IsTrans Segment segLE := ⟨fun _ _ _ hab hbc => le_trans hab hbc⟩

/-- Python lexicographic ordering on the tuples `(start, end, category)`
built by `merge_overlaps` before sorting. -/
def tupLE (x y : ℚ × ℚ × String) : Prop :=
  x.1 < y.1 ∨ (x.1 = y.1 ∧ (x.2.1 < y.2.1 ∨ (x.2.1 = y.2.1 ∧ x.2.2 ≤ y.2.2)))

instance : DecidableRel tupLE := fun x y =>
  inferInstanceAs (Decidable (x.1 < y.1 ∨ (x.1 = y.1 ∧ (x.2.1 < y.2.1 ∨ (x.2.1 = y.2.1 ∧ x.2.2 ≤ y.2.2)))))

instance : IsTotal (ℚ × ℚ × String) tupLE := by
  constructor
  intro x y
  rcases lt_trichotomy x.1 y.1 with h | h | h
  · exact Or.inl (Or.inl h)
  · rcases lt_trichotomy x.2.1 y.2.1 with h2 | h2 | h2
    · exact Or.inl (Or.inr ⟨h, Or.inl h2⟩)
    · rcases le_total x.2.2 y.2.2 with h3 | h3
      · exact Or.inl (Or.inr ⟨h, Or.inr ⟨h2, h3⟩⟩)
      · exact Or.inr (Or.inr ⟨h.symm, Or.inr ⟨h2.symm, h3⟩⟩)
    · exact Or.inr (Or.inr ⟨h.symm, Or.inl h2⟩)
  · exact Or.inr (Or.inl h)

instance : IsTrans (ℚ × ℚ × String) tupLE := by
  constructor
  rintro x y z (h | ⟨he, h⟩) (g | ⟨ge, g⟩)
  · exact Or.inl (h.trans g)
  · exact Or.inl (ge ▸ h)
  · exact Or.inl (he ▸ g)
  · refine Or.inr ⟨he.trans ge, ?_⟩
    rcases h with h | ⟨he2, h⟩ <;> rcases g with g | ⟨ge2, g⟩
    · exact Or.inl (h.trans g)
    · exact Or.inl (ge2 ▸ h)
    · exact Or.inl (he2 ▸ g)
    · exact Or.inr ⟨he2.trans ge2, h.trans g⟩

namespace App

/-! Definitions embedded from src/app/main.py. -/

/-- Characters stripped by Python `str.strip()` (ASCII whitespace). -/
def pyIsSpace (c : Char) : Bool :=
  c = ' ' || c = '\t' || c = '\n' || c = '\r' || c = '\x0b' || c = '\x0c'

/-- Python `s.strip()` on a character list. -/
def stripChars (s : List Char) : List Char :=
  ((s.dropWhile pyIsSpace).reverse.dropWhile pyIsSpace).reverse

/-- ASCII decimal digit test (Python `str.isdigit` restricted to ASCII). -/
def isDigitChar (c : Char) : Bool := decide ('0' ≤ c ∧ c ≤ '9')

/-- Python `s.isdigit()`: non-empty and all digits. -/
def strIsDigit (s : List Char) : Bool := !s.isEmpty && s.all isDigitChar

/-- Python `s.split(":")`: always returns at least one (possibly empty) part. -/
def splitColon : List Char → List (List Char)
  | [] => [[]]
  | c :: rest =>
      if c = ':' then [] :: splitColon rest
      else
        match splitColon rest with
        | [] => [[c]]
        | p :: ps => (c :: p) :: ps

/-- Python `int(...)` on a digit string. -/
def digitsToNat (s : List Char) : ℕ :=
  s.foldl (fun acc c => acc * 10 + (c.toNat - 48)) 0

/-- Embeds `parse_time_like` (src/app/main.py lines 695-731): strip, reject
empty and leading dash, accept bare digits, else split on colons and accept
the MM:SS form (seconds < 60) or the HH:MM:SS form (minutes and seconds < 60),
returning `none` on all other inputs. -/
def parse_time_like (s : List Char) : Option ℕ :=
  let t := stripChars s
  if t.isEmpty then none
  else if t.head? = some ('-') then none
  else if strIsDigit t then some (digitsToNat t)
  else
    let parts := splitColon t
    if !parts.all strIsDigit then none
    else
      match parts with
      | [m, s2] =>
          if 60 ≤ digitsToNat s2 then none
          else some (digitsToNat m * 60 + digitsToNat s2)
      | [h, m, s2] =>
          if 60 ≤ digitsToNat m ∨ 60 ≤ digitsToNat s2 then none
          else some (digitsToNat h * 3600 + digitsToNat m * 60 + digitsToNat s2)
      | _ => none

/-- Python `f"{n:02d}"`: zero-pad to width two (a sign counts toward the width,
so `-1` renders as "-1"). -/
def pad2 (n : ℤ) : String :=
  if 0 ≤ n ∧ n < 10 then "0" ++ toString n else toString n

/-- Embeds `fmt_hhmmss` (src/app/main.py lines 734-739). Python `//` is floor
division (`Int.fdiv`) and `%` with a positive modulus is `Int.emod`.
There is no guard for negative input in this version. -/
def fmt_hhmmss (seconds : ℤ) : String :=
  pad2 (Int.fdiv seconds 3600) ++ ":" ++ pad2 (Int.fdiv (Int.emod seconds 3600) 60)
    ++ ":" ++ pad2 (Int.emod seconds 60)

/-- Scan of the keyframe list in `find_nearest_keyframes`: Python starts with
`min_diff = float("inf")` (modelled by `none`) and replaces the best candidate
only on a strict `<` improvement of the absolute difference. -/
def kfScan (target best : ℚ) (bestDiff : Option ℚ) : List ℚ → ℚ
  | [] => best
  | k :: rest =>
      match bestDiff with
      | none => kfScan target k (some (|k - target|)) rest
      | some d =>
          if |k - target| < d then kfScan target k (some (|k - target|)) rest
          else kfScan target best (some d) rest

/-- Embeds `find_nearest_keyframes` (src/app/main.py lines 814-851). -/
def find_nearest_keyframes (keyframes : List ℚ) (startSec endSec : ℤ) : ℚ × ℚ :=
  match keyframes with
  | [] => ((startSec : ℚ), (endSec : ℚ))
  | _ :: _ =>
      (kfScan (startSec : ℚ) (startSec : ℚ) none keyframes,
       kfScan (endSec : ℚ) (endSec : ℚ) none keyframes)

/-- Tuple `(max(0.0, s["start"] - margin), s["end"] + margin, s["category"])`
built by `merge_overlaps` before sorting. -/
def toTuple (margin : ℚ) (s : Segment) : ℚ × ℚ × String :=
  (max 0 (s.start - margin), s.stop + margin, s.category)

/-- Python set insertion `cats.add(cat)` observed through sorted output:
collect categories without duplicates. -/
def addCat (cats : List String) (c : String) : List String :=
  if c ∈ cats then cats else cats ++ [c]

/-- Sorting used for the final `sorted(cats)` list of categories. -/
def sortStrings (l : List String) : List String :=
  List.insertionSort (fun u v : String => u ≤ v) l

/-- The sweep loop of `merge_overlaps`: keep an open interval `(a, b, cats)`;
a later tuple starting after `b` closes it, otherwise it extends `b` and
contributes its category. -/
def sweepGo (a b : ℚ) (cats : List String) : List (ℚ × ℚ × String) → List (ℚ × ℚ × List String)
  | [] => [(a, b, cats)]
  | (a2, b2, c2) :: rest =>
      if a2 > b then (a, b, cats) :: sweepGo a2 b2 [c2] rest
      else sweepGo a (max b b2) (addCat cats c2) rest

/-- Embeds `merge_overlaps` (src/app/main.py lines 1230-1245): expand by the
margin (clamping starts at 0), sort the tuples lexicographically, sweep, and
render each merged interval with its sorted category list. -/
def merge_overlaps (segments : List Segment) (margin : ℚ) : List MergedSegment :=
  match List.insertionSort tupLE (segments.map (toTuple margin)) with
  | [] => []
  | (a, b, c) :: rest =>
      (sweepGo a b [c] rest).map (fun x => ⟨x.1, x.2.1, sortStrings x.2.2⟩)

/-- The sweep of `invert_segments`: walk the sorted segments with a cursor,
emitting the gap `(cur, a)` before each clamped segment `(a, b)` that starts
past the cursor. -/
def invertAux (total : ℚ) : List Segment → ℚ → List (ℚ × ℚ)
  | [], cur => if cur < total then [(cur, total)] else []
  | s :: rest, cur =>
      let a := max 0 s.start
      let b := min total s.stop
      if cur < a then (cur, a) :: invertAux total rest (max cur b)
      else invertAux total rest (max cur b)

/-- Embeds `invert_segments` (src/app/main.py lines 1249-1260): the kept
intervals `[start, end)` complementary to the segments within the duration. -/
def invert_segments (segments : List Segment) (total : ℚ) : List (ℚ × ℚ) :=
  invertAux total (List.insertionSort segLE segments) 0

/-- The table of `(orig_start, orig_end, new_start)` triples built by
`build_time_remap` from the kept intervals. -/
def buildMapping : List (ℚ × ℚ) → ℚ → List (ℚ × ℚ × ℚ)
  | [], _ => []
  | (a, b) :: rest, newT => (a, b, newT) :: buildMapping rest (newT + (b - a))

/-- Python `mapping[-1][2] if mapping else 0.0`. -/
def lastNewStart (m : List (ℚ × ℚ × ℚ)) : ℚ :=
  ((m.getLast?).map (fun x => x.2.2)).getD 0

/-- Original end of the last kept interval of a remap table (0 if empty). -/
def lastOrigEnd (m : List (ℚ × ℚ × ℚ)) : ℚ :=
  ((m.getLast?).map (fun x => x.2.1)).getD 0

/-- The scan inside the `remap` closure: return `ns` when `t` falls before a
block, `ns + (t - a)` when inside it, and the fixed fallback (the last block's
`new_start`, or 0 for an empty table) when `t` is past every block. -/
def remapGo (fallback : ℚ) : List (ℚ × ℚ × ℚ) → ℚ → ℚ
  | [], _ => fallback
  | (a, b, ns) :: rest, t =>
      if t < a then ns
      else if t ≤ b then ns + (t - a)
      else remapGo fallback rest t

/-- Embeds `build_time_remap` (src/app/main.py lines 1263-1286): returns the
remap closure together with the mapping table. -/
def build_time_remap (segments : List Segment) (total : ℚ) : (ℚ → ℚ) × List (ℚ × ℚ × ℚ) :=
  let mapping := buildMapping (invert_segments segments total) 0
  (fun t => remapGo (lastNewStart mapping) mapping t, mapping)

/-- The accumulation loop of `calculate_sponsor_overlap`: add
`overlap_end - overlap_start` whenever `overlap_start < overlap_end`. -/
def sponsorLoop (startSec endSec : ℤ) : List Segment → ℚ
  | [] => 0
  | s :: rest =>
      (if max (startSec : ℚ) s.start < min (endSec : ℚ) s.stop
       then min (endSec : ℚ) s.stop - max (startSec : ℚ) s.start
       else 0) + sponsorLoop startSec endSec rest

/-- Embeds `calculate_sponsor_overlap` (src/app/main.py lines 1394-1468):
early return `(0, end_sec)` on an empty segment list, otherwise
`(int(total_sponsor_time), int(end_sec - total_sponsor_time))`. -/
def calculate_sponsor_overlap (startSec endSec : ℤ) (segs : List Segment) : ℤ × ℤ :=
  match segs with
  | [] => (0, endSec)
  | s :: rest =>
      (pyInt (sponsorLoop startSec endSec (s :: rest)),
       pyInt ((endSec : ℚ) - sponsorLoop startSec endSec (s :: rest)))

/-- Models the module-level download action around src/app/main.py lines
2670-2806 and 2905 on the SponsorBlock-remove path (remove categories
non-empty): `do_cut = end_sec > start_sec` is decided on the original window,
`calculate_sponsor_overlap` adjusts the end when it removed anything, and the
cut then proceeds whenever `do_cut` holds, using the adjusted end, with no
further validation of the final window. Returns
`(do_cut, cut_start, cut_end)`. -/
def section_cut_flow (startSec endSec : ℤ) (segs : List Segment) : Bool × ℤ × ℤ :=
  let doCut : Bool := decide (startSec < endSec)
  let res := calculate_sponsor_overlap startSec endSec segs
  let endFinal : ℤ := if doCut = true ∧ 0 < res.1 then res.2 else endSec
  (doCut, startSec, endFinal)

end App

namespace Utils

/-! Definitions embedded from src/app/utils.py. -/

/-- Embeds `fmt_hhmmss` (src/app/utils.py lines 74-91): identical arithmetic
to the main-module version but clamping negative input to "00:00:00". -/
def fmt_hhmmss (seconds : ℤ) : String :=
  if seconds < 0 then "00:00:00"
  else
    App.pad2 (Int.fdiv seconds 3600) ++ ":" ++ App.pad2 (Int.fdiv (Int.emod seconds 3600) 60)
      ++ ":" ++ App.pad2 (Int.emod seconds 60)

/-- Ordering used by `sorted(segments, key=lambda x: x[0])`. -/
def tleZ (p q : ℤ × ℤ) : Prop := p.1 ≤ q.1

instance : DecidableRel tleZ := fun p q => inferInstanceAs (Decidable (p.1 ≤ q.1))

instance : IsTotal (ℤ × ℤ) tleZ := ⟨fun a b => le_total a.1 b.1⟩

instance : IsTrans (ℤ × ℤ) tleZ := ⟨fun _ _ _ hab hbc => le_trans hab hbc⟩

/-- The gap-emitting sweep of the utils `invert_segments` (no clamping of the
segment bounds in this version). -/
def invertAux (total : ℤ) : List (ℤ × ℤ) → ℤ → List (ℤ × ℤ)
  | [], lastEnd => if lastEnd < total then [(lastEnd, total)] else []
  | (s, e) :: rest, lastEnd =>
      if lastEnd < s then (lastEnd, s) :: invertAux total rest (max lastEnd e)
      else invertAux total rest (max lastEnd e)

/-- Embeds `invert_segments` (src/app/utils.py lines 184-216): guard returning
`[(0, total)]` for a positive duration with no segments and `[]` whenever
`total_duration <= 0`, else sort by start and sweep. -/
def invert_segments (segments : List (ℤ × ℤ)) (total : ℤ) : List (ℤ × ℤ) :=
  if segments = [] ∨ total ≤ 0 then (if 0 < total then [(0, total)] else [])
  else invertAux total (List.insertionSort tleZ segments) 0

end Utils

/-! Spec-side vocabulary used to state the claims. -/

/-- The exact real-valued overlap sum of the spec:
`sum over segments of max(0, min(endSec, seg.end) - max(startSec, seg.start))`. -/
def overlapSum (startSec endSec : ℤ) (segs : List Segment) : ℚ :=
  (segs.map (fun s => max 0 (min (endSec : ℚ) s.stop - max (startSec : ℚ) s.start))).sum

/-- Well-formedness of a keep-interval list: each interval is non-degenerate
(`start < end`) and consecutive intervals are disjoint and ascending
(`end ≤ next start`). -/
def KeepChain : List (ℚ × ℚ) → Prop
  | [] => True
  | [p] => p.1 < p.2
  | p :: q :: rest => p.1 < p.2 ∧ p.2 ≤ q.1 ∧ KeepChain (q :: rest)

/-- Well-formedness of a remap table: each block has `orig_start ≤ orig_end`,
blocks are disjoint and ascending, and each `new_start` is the previous
`new_start` plus the previous block's kept duration. -/
def WFmap : List (ℚ × ℚ × ℚ) → Prop
  | [] => True
  | [x] => x.1 ≤ x.2.1
  | x :: y :: rest =>
      x.1 ≤ x.2.1 ∧ x.2.1 ≤ y.1 ∧ y.2.2 = x.2.2 + (x.2.1 - x.1) ∧ WFmap (y :: rest)

/-- Well-formedness of merged output: each interval has `start ≤ end` and
consecutive intervals are strictly separated (`end < next start`). -/
def MergedChain : List MergedSegment → Prop
  | [] => True
  | [m] => m.start ≤ m.stop
  | m :: n :: rest => m.start ≤ m.stop ∧ m.stop < n.start ∧ MergedChain (n :: rest)

/-- Membership of a time `x` in the half-open union of keep intervals. -/
def inKeeps (keeps : List (ℚ × ℚ)) (x : ℚ) : Prop :=
  ∃ p ∈ keeps, p.1 ≤ x ∧ x < p.2

/-- Membership of a time `x` in the half-open union of merged segments. -/
def inMerged (ms : List MergedSegment) (x : ℚ) : Prop :=
  ∃ m ∈ ms, m.start ≤ x ∧ x < m.stop

/-- Well-formedness of the raw sweep output of `merge_overlaps` (before the
category lists are sorted): intervals are non-inverted and strictly
separated. -/
def SweepChain : List (ℚ × ℚ × List String) → Prop
  | [] => True
  | [y] => y.1 ≤ y.2.1
  | y :: z :: rest => y.1 ≤ y.2.1 ∧ y.2.1 < z.1 ∧ SweepChain (z :: rest)

/-- Strict separation of consecutive tuples (each tuple ends strictly before
the next starts). -/
def TupSep : List (ℚ × ℚ × String) → Prop
  | [] => True
  | [_] => True
  | u :: v :: rest => u.2.1 < v.1 ∧ TupSep (v :: rest)

/-- Written from the amended claim C8: `parse_time_like` returns `none`
exactly on empty/whitespace-only input, a leading dash, a non-digit
colon-separated component, four or more components, seconds ≥ 60 in the two-
or three-component forms, or minutes ≥ 60 in the three-component form;
otherwise it returns the parsed seconds of the bare-integer, MM:SS
or HH:MM:SS form. -/
def parseTimeSpec (s : List Char) : Option ℕ :=
  let t := App.stripChars s
  let parts := App.splitColon t
  if t.isEmpty ∨ t.head? = some ('-') ∨ (¬ parts.all App.strIsDigit = true) ∨
      4 ≤ parts.length ∨
      (parts.length = 2 ∧ 60 ≤ App.digitsToNat (parts.getD 1 [])) ∨
      (parts.length = 3 ∧
        (60 ≤ App.digitsToNat (parts.getD 1 []) ∨ 60 ≤ App.digitsToNat (parts.getD 2 [])))
  then none
  else
    match parts with
    | [x] => some (App.digitsToNat x)
    | [m, s2] => some (App.digitsToNat m * 60 + App.digitsToNat s2)
    | [h, m, s2] =>
        some (App.digitsToNat h * 3600 + App.digitsToNat m * 60 + App.digitsToNat s2)
    | _ => none

/-! Helper lemmas. -/

theorem pyInt_intCast (n : ℤ) : pyInt (n : ℚ) = n := by
  unfold pyInt
  split <;> simp

theorem sponsorLoop_eq_overlapSum (s e : ℤ) :
    ∀ l : List Segment, App.sponsorLoop s e l = overlapSum s e l := by
  intro l
  induction l with
  | nil => simp [App.sponsorLoop, overlapSum]
  | cons sg t ih =>
      simp only [App.sponsorLoop, overlapSum, List.map_cons, List.sum_cons] at *
      rw [ih]
      congr 1
      rcases lt_or_le (max (s : ℚ) sg.start) (min (e : ℚ) sg.stop) with h | h
      · rw [if_pos h]
        exact (max_eq_right (sub_nonneg.mpr h.le)).symm
      · rw [if_neg (not_lt.mpr h)]
        exact (max_eq_left (sub_nonpos.mpr h)).symm

theorem overlapSum_nonneg (s e : ℤ) (l : List Segment) : 0 ≤ overlapSum s e l := by
  apply List.sum_nonneg
  intro q hq
  obtain ⟨sg, _, rfl⟩ := List.mem_map.mp hq
  exact le_max_left _ _

theorem calculate_sponsor_overlap_eq (s e : ℤ) (l : List Segment) :
    App.calculate_sponsor_overlap s e l =
      (pyInt (overlapSum s e l), pyInt ((e : ℚ) - overlapSum s e l)) := by
  cases l with
  | nil =>
      have h0 : overlapSum s e [] = 0 := by simp [overlapSum]
      have h1 : pyInt ((0 : ℤ) : ℚ) = 0 := pyInt_intCast 0
      simp only [App.calculate_sponsor_overlap, h0, sub_zero, pyInt_intCast]
      simp only [Int.cast_zero] at h1
      rw [h1]
  | cons sg t =>
      simp only [App.calculate_sponsor_overlap, sponsorLoop_eq_overlapSum]

theorem overlapSum_int (s e : ℤ) :
    ∀ l : List Segment,
      (∀ sg ∈ l, (∃ a : ℤ, sg.start = (a : ℚ)) ∧ ∃ b : ℤ, sg.stop = (b : ℚ)) →
      ∃ k : ℤ, overlapSum s e l = (k : ℚ) := by
  intro l
  induction l with
  | nil => exact fun _ => ⟨0, by simp [overlapSum]⟩
  | cons sg t ih =>
      intro h
      obtain ⟨⟨a, ha⟩, ⟨b, hb⟩⟩ := h sg (List.mem_cons_self sg t)
      obtain ⟨k, hk⟩ := ih (fun x hx => h x (List.mem_cons_of_mem sg hx))
      refine ⟨max 0 (min e b - max s a) + k, ?_⟩
      simp only [overlapSum, List.map_cons, List.sum_cons] at *
      rw [ha, hb, hk]
      push_cast
      ring_nf

/-! Claim theorems. -/

/-- C10: `calculate_sponsor_overlap` truncates both returned values toward
zero: it returns `int()` of the exact overlap sum and `int()` of
`endSec - sum`, so fractional overlap is discarded from both, and a negative
adjusted end is truncated toward zero (the concrete conjunct: overlap 19/10
over a window of length 1 gives adjusted end `int(-9/10) = 0`, not `-1`). -/
theorem C10_truncation_toward_zero :
    (∀ (s e : ℤ) (l : List Segment),
      App.calculate_sponsor_overlap s e l =
        (pyInt (overlapSum s e l), pyInt ((e : ℚ) - overlapSum s e l))) ∧
    App.calculate_sponsor_overlap 0 1 [⟨0, 1, "a"⟩, ⟨0, 9/10, "b"⟩] = (1, 0) := by
  refine ⟨calculate_sponsor_overlap_eq, ?_⟩
  norm_num [App.calculate_sponsor_overlap, App.sponsorLoop, pyInt, Int.floor_eq_iff,
    Int.ceil_eq_iff]

/-- C2 is false as stated: with the fractional segment `[0.5, 1]` and window
`(0, 10)` the code returns `(0, 9)`, so the returned `removedSeconds` is not
the exact overlap sum `1/2` and the returned `adjustedEnd` 9 differs from
`endSec - removedSeconds = 10`. -/
theorem C2_counterexample :
    App.calculate_sponsor_overlap 0 10 [⟨1/2, 1, "sponsor"⟩] = (0, 9) ∧
    ¬ ((App.calculate_sponsor_overlap 0 10 [⟨1/2, 1, "sponsor"⟩]).2 =
        10 - (App.calculate_sponsor_overlap 0 10 [⟨1/2, 1, "sponsor"⟩]).1) ∧
    ¬ (((App.calculate_sponsor_overlap 0 10 [⟨1/2, 1, "sponsor"⟩]).1 : ℚ) =
        overlapSum 0 10 [⟨1/2, 1, "sponsor"⟩]) := by
  have h : App.calculate_sponsor_overlap 0 10 [⟨1/2, 1, "sponsor"⟩] = (0, 9) := by
    norm_num [App.calculate_sponsor_overlap, App.sponsorLoop, pyInt, Int.floor_eq_iff]
  refine ⟨h, ?_, ?_⟩
  · rw [h]
    norm_num
  · rw [h]
    norm_num [overlapSum]

/-- C2 (amended): when every segment bound is an integer, the returned values
are exact: `removedSeconds` equals the overlap sum
`sum of max(0, min(endSec, seg.end) - max(startSec, seg.start))` and
`adjustedEnd = endSec - removedSeconds`; `startSec` is not returned, let alone
adjusted. -/
theorem C2_overlap_exact_on_integer_segments (s e : ℤ) (l : List Segment)
    (h : ∀ sg ∈ l, (∃ a : ℤ, sg.start = (a : ℚ)) ∧ ∃ b : ℤ, sg.stop = (b : ℚ)) :
    ((App.calculate_sponsor_overlap s e l).1 : ℚ) = overlapSum s e l ∧
    ((App.calculate_sponsor_overlap s e l).2 : ℚ) = (e : ℚ) - overlapSum s e l ∧
    (App.calculate_sponsor_overlap s e l).2 = e - (App.calculate_sponsor_overlap s e l).1 := by
  obtain ⟨k, hk⟩ := overlapSum_int s e l h
  rw [calculate_sponsor_overlap_eq, hk]
  have h2 : (e : ℚ) - (k : ℚ) = ((e - k : ℤ) : ℚ) := by push_cast; ring
  rw [h2, pyInt_intCast, pyInt_intCast]
  refine ⟨rfl, by push_cast; ring, by ring⟩

/-- C2 witness: the spec example, segments `[{10, 20}]` with window `(0, 30)`. -/
theorem C2_witness :
    ((App.calculate_sponsor_overlap 0 30 [⟨10, 20, "sponsor"⟩]).1 : ℚ) =
      overlapSum 0 30 [⟨10, 20, "sponsor"⟩] ∧
    ((App.calculate_sponsor_overlap 0 30 [⟨10, 20, "sponsor"⟩]).2 : ℚ) =
      (30 : ℚ) - overlapSum 0 30 [⟨10, 20, "sponsor"⟩] ∧
    (App.calculate_sponsor_overlap 0 30 [⟨10, 20, "sponsor"⟩]).2 =
      30 - (App.calculate_sponsor_overlap 0 30 [⟨10, 20, "sponsor"⟩]).1 := by
  have h := C2_overlap_exact_on_integer_segments 0 30 [⟨10, 20, "sponsor"⟩]
    (by
      intro sg hsg
      simp only [List.mem_singleton] at hsg
      subst hsg
      exact ⟨⟨10, by norm_num⟩, ⟨20, by norm_num⟩⟩)
  exact h

/-- C3: whenever the returned `removedSeconds` is at least the window length,
the returned `adjustedEnd` is at most `startSec` (for a non-negative start);
but the module-level download action does not surface this as an error: on the
fully-covered window `(0, 30)` it still proceeds with `do_cut = true` and the
degenerate cut window `(0, 0)`. -/
theorem C3_degenerate_window_not_fatal :
    (∀ (s e : ℤ) (l : List Segment), 0 ≤ s →
        e - s ≤ (App.calculate_sponsor_overlap s e l).1 →
        (App.calculate_sponsor_overlap s e l).2 ≤ s) ∧
    App.section_cut_flow 0 30 [⟨0, 30, "sponsor"⟩] = (true, 0, 0) := by
  constructor
  · intro s e l hs h
    rw [calculate_sponsor_overlap_eq] at h ⊢
    simp only at h ⊢
    set T := overlapSum s e l with hT
    have hT0 : 0 ≤ T := overlapSum_nonneg s e l
    rw [pyInt, if_pos hT0] at h
    have h1 : ((e - s : ℤ) : ℚ) ≤ T := Int.le_floor.mp h
    have h2 : (e : ℚ) - T ≤ (s : ℚ) := by push_cast at h1 ⊢; linarith
    rw [pyInt]
    split
    · calc ⌊(e : ℚ) - T⌋ ≤ ⌊(s : ℚ)⌋ := Int.floor_le_floor h2
        _ = s := Int.floor_intCast s
    · refine le_trans (Int.ceil_le.mpr ?_) hs
      push_cast
      linarith [not_le.mp (by assumption)]
  · norm_num [App.section_cut_flow, App.calculate_sponsor_overlap, App.sponsorLoop, pyInt,
      Int.floor_eq_iff]

/-- C3 witness: on the fully-covered window the adjusted end is at most the
start. -/
theorem C3_witness :
    (App.calculate_sponsor_overlap 0 30 [⟨0, 30, "sponsor"⟩]).2 ≤ 0 := by
  refine C3_degenerate_window_not_fatal.1 0 30 [⟨0, 30, "sponsor"⟩] le_rfl ?_
  norm_num [App.calculate_sponsor_overlap, App.sponsorLoop, pyInt, Int.floor_eq_iff]

/-- C5: the utils `invert_segments` satisfies both degenerate cases (empty
list gives the full-duration interval, non-positive duration gives the empty
list), and so does the main-module version on an empty segment list; but the
main-module version violates the non-positive-duration case on a non-empty
segment list: `invert_segments([{10, 20}], 0)` returns `[(0, 10)]`, not `[]`. -/
theorem C5_invert_degenerate_cases :
    (∀ total : ℤ, 0 < total → Utils.invert_segments [] total = [(0, total)]) ∧
    (∀ (l : List (ℤ × ℤ)) (total : ℤ), total ≤ 0 → Utils.invert_segments l total = []) ∧
    (∀ total : ℚ, 0 < total → App.invert_segments [] total = [(0, total)]) ∧
    (∀ total : ℚ, total ≤ 0 → App.invert_segments [] total = []) ∧
    App.invert_segments [⟨10, 20, "sponsor"⟩] 0 = [(0, 10)] := by
  refine ⟨?_, ?_, ?_, ?_, ?_⟩
  · intro total h
    simp [Utils.invert_segments, h]
  · intro l total h
    simp [Utils.invert_segments, h, not_lt.mpr h]
  · intro total h
    simp [App.invert_segments, App.invertAux, List.insertionSort, h]
  · intro total h
    simp [App.invert_segments, App.invertAux, List.insertionSort, not_lt.mpr h]
  · norm_num [App.invert_segments, App.invertAux, List.insertionSort, List.orderedInsert]

/-- C5 witness: the degenerate cases evaluated at concrete durations. -/
theorem C5_witness :
    Utils.invert_segments [] 100 = [(0, 100)] ∧ Utils.invert_segments [(10, 20)] 0 = [] := by
  exact ⟨C5_invert_degenerate_cases.1 100 (by decide),
    C5_invert_degenerate_cases.2.1 [(10, 20)] 0 (by decide)⟩

/-- C9: both versions agree and render HH:MM:SS on non-negative input (for
example 3723 renders as "01:02:03"); the utils version clamps negative input
to "00:00:00", but the main-module version does not: it renders -1 as
"-1:59:59" via Python floor division and modulo. -/
theorem C9_fmt_negative_not_clamped :
    (∀ s : ℤ, 0 ≤ s → App.fmt_hhmmss s = Utils.fmt_hhmmss s) ∧
    App.fmt_hhmmss 3723 = "01:02:03" ∧ Utils.fmt_hhmmss 3723 = "01:02:03" ∧
    Utils.fmt_hhmmss (-1) = "00:00:00" ∧ App.fmt_hhmmss (-1) = "-1:59:59" := by
  refine ⟨?_, by decide, by decide, by decide, by decide⟩
  intro s hs
  rw [Utils.fmt_hhmmss, if_neg (not_lt.mpr hs)]
  rfl

/-- C9 witness: agreement of the two versions at 3723 seconds. -/
theorem C9_witness : App.fmt_hhmmss 3723 = Utils.fmt_hhmmss 3723 :=
  C9_fmt_negative_not_clamped.1 3723 (by decide)

/-- C8 is false as stated: minutes are not validated in the two-component
form, so "60:00" parses to 3600 instead of being rejected; and a four-
component all-digit string, which the claim's rejection list does not cover,
is rejected. -/
theorem C8_counterexample :
    App.parse_time_like (String.toList ("60:00")) = some 3600 ∧
    App.parse_time_like (String.toList ("60:00")) ≠ none ∧
    App.parse_time_like (String.toList ("1:2:3:4")) = none := by
  refine ⟨by decide, by decide, by decide⟩

/-! Lemmas about the remap table and the remap scan. -/

theorem WFmap_tail {x : ℚ × ℚ × ℚ} {m : List (ℚ × ℚ × ℚ)} (h : WFmap (x :: m)) : WFmap m := by
  cases m with
  | nil => trivial
  | cons y rest => exact h.2.2.2

theorem WFmap_singleton_iff (a b ns : ℚ) : WFmap [(a, b, ns)] ↔ a ≤ b := Iff.rfl

theorem WFmap_cons_cons_iff (a b ns a2 b2 ns2 : ℚ) (rest : List (ℚ × ℚ × ℚ)) :
    WFmap ((a, b, ns) :: (a2, b2, ns2) :: rest) ↔
      a ≤ b ∧ b ≤ a2 ∧ ns2 = ns + (b - a) ∧ WFmap ((a2, b2, ns2) :: rest) := Iff.rfl

theorem lastNewStart_singleton (a b ns : ℚ) : App.lastNewStart [(a, b, ns)] = ns := rfl

theorem lastOrigEnd_singleton (a b ns : ℚ) : App.lastOrigEnd [(a, b, ns)] = b := rfl

theorem lastNewStart_cons_cons (x y : ℚ × ℚ × ℚ) (rest : List (ℚ × ℚ × ℚ)) :
    App.lastNewStart (x :: y :: rest) = App.lastNewStart (y :: rest) := by
  simp [App.lastNewStart, List.getLast?_cons_cons]

theorem lastOrigEnd_cons_cons (x y : ℚ × ℚ × ℚ) (rest : List (ℚ × ℚ × ℚ)) :
    App.lastOrigEnd (x :: y :: rest) = App.lastOrigEnd (y :: rest) := by
  simp [App.lastOrigEnd, List.getLast?_cons_cons]

theorem ns_le_lastNewStart :
    ∀ (m : List (ℚ × ℚ × ℚ)) (a b ns : ℚ), WFmap ((a, b, ns) :: m) →
      ns ≤ App.lastNewStart ((a, b, ns) :: m) := by
  intro m
  induction m with
  | nil => intro a b ns _; simp [App.lastNewStart]
  | cons y rest ih =>
      intro a b ns h
      obtain ⟨a2, b2, ns2⟩ := y
      rw [WFmap_cons_cons_iff] at h
      obtain ⟨hab, _, hns, hwf⟩ := h
      rw [lastNewStart_cons_cons]
      have h1 : ns2 ≤ App.lastNewStart ((a2, b2, ns2) :: rest) := ih a2 b2 ns2 hwf
      have h2 : ns ≤ ns2 := by rw [hns]; linarith
      exact le_trans h2 h1

theorem remapGo_ge_head :
    ∀ (m : List (ℚ × ℚ × ℚ)) (a b ns fallback t : ℚ), WFmap ((a, b, ns) :: m) →
      App.lastNewStart ((a, b, ns) :: m) ≤ fallback →
      ns ≤ App.remapGo fallback ((a, b, ns) :: m) t := by
  intro m
  induction m with
  | nil =>
      intro a b ns fallback t hwf hf
      rw [lastNewStart_singleton] at hf
      simp only [App.remapGo]
      split
      · exact le_refl ns
      · split
        · have : a ≤ t := not_lt.mp (by assumption)
          linarith
        · exact hf
  | cons y rest ih =>
      intro a b ns fallback t h hf
      obtain ⟨a2, b2, ns2⟩ := y
      rw [WFmap_cons_cons_iff] at h
      obtain ⟨hab, _, hns, hwf⟩ := h
      rw [lastNewStart_cons_cons] at hf
      simp only [App.remapGo]
      split
      · exact le_refl ns
      · split
        · have : a ≤ t := not_lt.mp (by assumption)
          linarith
        · have h1 : ns2 ≤ App.remapGo fallback ((a2, b2, ns2) :: rest) t := ih a2 b2 ns2 fallback t hwf hf
          have h2 : ns ≤ ns2 := by rw [hns]; linarith
          exact le_trans h2 h1

theorem remapGo_mono :
    ∀ (m : List (ℚ × ℚ × ℚ)) (fallback t1 t2 : ℚ), WFmap m →
      App.lastNewStart m ≤ fallback → t1 ≤ t2 →
      (m = [] ∨ t2 ≤ App.lastOrigEnd m) →
      App.remapGo fallback m t1 ≤ App.remapGo fallback m t2 := by
  intro m
  induction m with
  | nil => intro fallback t1 t2 _ _ _ _; exact le_refl fallback
  | cons x m ih =>
      intro fallback t1 t2 hwf hf h12 hin
      obtain ⟨a, b, ns⟩ := x
      have hin2 : t2 ≤ App.lastOrigEnd ((a, b, ns) :: m) := by
        rcases hin with h | h
        · exact absurd h (List.cons_ne_nil _ _)
        · exact h
      have hab : a ≤ b := by
        cases m with
        | nil => exact hwf
        | cons y rest => exact hwf.1
      by_cases h1a : t1 < a
      · rw [App.remapGo, if_pos h1a]
        by_cases h2a : t2 < a
        · rw [App.remapGo, if_pos h2a]
        · rw [App.remapGo, if_neg h2a]
          by_cases h2b : t2 ≤ b
          · rw [if_pos h2b]
            linarith [not_lt.mp h2a]
          · rw [if_neg h2b]
            cases m with
            | nil =>
                exfalso
                rw [lastOrigEnd_singleton] at hin2
                exact h2b hin2
            | cons y rest =>
                obtain ⟨a2, b2, ns2⟩ := y
                rw [WFmap_cons_cons_iff] at hwf
                obtain ⟨_, _, hns, hwf2⟩ := hwf
                rw [lastNewStart_cons_cons] at hf
                have h3 : ns2 ≤ App.remapGo fallback ((a2, b2, ns2) :: rest) t2 :=
                  remapGo_ge_head rest a2 b2 ns2 fallback t2 hwf2 hf
                have h4 : ns ≤ ns2 := by rw [hns]; linarith
                exact le_trans h4 h3
      · by_cases h1b : t1 ≤ b
        · have ha1 : a ≤ t1 := not_lt.mp h1a
          rw [App.remapGo, if_neg h1a, if_pos h1b]
          have h2a : ¬ t2 < a := by push_neg; linarith
          rw [App.remapGo, if_neg h2a]
          by_cases h2b : t2 ≤ b
          · rw [if_pos h2b]
            linarith
          · rw [if_neg h2b]
            cases m with
            | nil =>
                exfalso
                rw [lastOrigEnd_singleton] at hin2
                exact h2b hin2
            | cons y rest =>
                obtain ⟨a2, b2, ns2⟩ := y
                rw [WFmap_cons_cons_iff] at hwf
                obtain ⟨_, _, hns, hwf2⟩ := hwf
                rw [lastNewStart_cons_cons] at hf
                have h3 : ns2 ≤ App.remapGo fallback ((a2, b2, ns2) :: rest) t2 :=
                  remapGo_ge_head rest a2 b2 ns2 fallback t2 hwf2 hf
                have h4 : ns + (t1 - a) ≤ ns2 := by rw [hns]; linarith
                exact le_trans h4 h3
        · have hb1 : b < t1 := not_le.mp h1b
          have h2a : ¬ t1 < a := h1a
          rw [App.remapGo, if_neg h1a, if_neg h1b]
          have h2a2 : ¬ t2 < a := by push_neg; linarith [not_lt.mp h1a]
          have h2b2 : ¬ t2 ≤ b := by push_neg; linarith
          rw [App.remapGo, if_neg h2a2, if_neg h2b2]
          cases m with
          | nil => exact le_refl fallback
          | cons y rest =>
              have hwf2 : WFmap (y :: rest) := WFmap_tail hwf
              have hf2 : App.lastNewStart (y :: rest) ≤ fallback := by
                rw [lastNewStart_cons_cons] at hf
                exact hf
              have hin3 : t2 ≤ App.lastOrigEnd (y :: rest) := by
                rw [lastOrigEnd_cons_cons] at hin2
                exact hin2
              exact ih fallback t1 t2 hwf2 hf2 h12 (Or.inr hin3)

theorem buildMapping_wf :
    ∀ (keeps : List (ℚ × ℚ)) (n : ℚ), KeepChain keeps → WFmap (App.buildMapping keeps n) := by
  intro keeps
  induction keeps with
  | nil => intro n _; trivial
  | cons p keeps ih =>
      intro n h
      obtain ⟨a, b⟩ := p
      cases keeps with
      | nil => exact le_of_lt h
      | cons q rest =>
          obtain ⟨c, d⟩ := q
          obtain ⟨h1, h2, h3⟩ := h
          exact ⟨le_of_lt h1, h2, rfl, ih (n + (b - a)) h3⟩

theorem invertAux_fst_ge (total : ℚ) :
    ∀ (l : List Segment) (cur : ℚ), ∀ p ∈ App.invertAux total l cur, cur ≤ p.1 := by
  intro l
  induction l with
  | nil =>
      intro cur p hp
      simp only [App.invertAux] at hp
      split at hp
      · simp only [List.mem_singleton] at hp
        subst hp
        exact le_refl cur
      · simp at hp
  | cons s l ih =>
      intro cur p hp
      simp only [App.invertAux] at hp
      split at hp
      · rcases List.mem_cons.mp hp with h | h
        · subst h
          exact le_refl cur
        · exact le_trans (le_max_left cur _) (ih (max cur (min total s.stop)) p h)
      · exact le_trans (le_max_left cur _) (ih (max cur (min total s.stop)) p hp)

theorem invertAux_chain (total : ℚ) :
    ∀ (l : List Segment) (cur : ℚ), 0 ≤ cur →
      (∀ s ∈ l, s.start ≤ s.stop) → (∀ s ∈ l, s.stop ≤ total) →
      KeepChain (App.invertAux total l cur) := by
  intro l
  induction l with
  | nil =>
      intro cur _ _ _
      simp only [App.invertAux]
      split
      · exact (by assumption : cur < total)
      · trivial
  | cons s l ih =>
      intro cur hcur h1 h2
      have hs1 : s.start ≤ s.stop := h1 s (List.mem_cons_self s l)
      have hs2 : s.stop ≤ total := h2 s (List.mem_cons_self s l)
      have h1t : ∀ x ∈ l, x.start ≤ x.stop := fun x hx => h1 x (List.mem_cons_of_mem s hx)
      have h2t : ∀ x ∈ l, x.stop ≤ total := fun x hx => h2 x (List.mem_cons_of_mem s hx)
      have hcur2 : (0 : ℚ) ≤ max cur (min total s.stop) := le_trans hcur (le_max_left _ _)
      simp only [App.invertAux]
      split
      · have hca : cur < max 0 s.start := by assumption
        have ha : max 0 s.start = s.start := by
          rcases max_cases (0 : ℚ) s.start with ⟨h, _⟩ | ⟨h, _⟩
          · exfalso; rw [h] at hca; linarith
          · exact h
        have hab : max 0 s.start ≤ min total s.stop := by
          rw [ha]
          exact le_min (le_trans hs1 hs2) hs1
        have hrec := ih (max cur (min total s.stop)) hcur2 h1t h2t
        cases hr : App.invertAux total l (max cur (min total s.stop)) with
        | nil => exact hca
        | cons q rest =>
            have hq : max cur (min total s.stop) ≤ q.1 :=
              invertAux_fst_ge total l (max cur (min total s.stop)) q
                (hr ▸ List.mem_cons_self q rest)
            rw [hr] at hrec
            exact ⟨hca, le_trans hab (le_trans (le_max_right cur _) hq), hrec⟩
      · exact ih (max cur (min total s.stop)) hcur2 h1t h2t

theorem invert_segments_chain (segs : List Segment) (total : ℚ)
    (h1 : ∀ s ∈ segs, s.start ≤ s.stop) (h2 : ∀ s ∈ segs, s.stop ≤ total) :
    KeepChain (App.invert_segments segs total) := by
  apply invertAux_chain total (List.insertionSort segLE segs) 0 le_rfl
  · intro s hs
    exact h1 s ((List.mem_insertionSort segLE).mp hs)
  · intro s hs
    exact h2 s ((List.mem_insertionSort segLE).mp hs)

theorem inKeeps_nil (x : ℚ) : inKeeps [] x ↔ False := by
  simp [inKeeps]

theorem inKeeps_cons (p : ℚ × ℚ) (L : List (ℚ × ℚ)) (x : ℚ) :
    inKeeps (p :: L) x ↔ (p.1 ≤ x ∧ x < p.2) ∨ inKeeps L x := by
  simp [inKeeps, List.mem_cons, or_and_right, exists_or]

theorem invertAux_mem (total : ℚ) :
    ∀ (l : List Segment) (cur x : ℚ), 0 ≤ cur →
      (∀ s ∈ l, s.start ≤ s.stop) → (∀ s ∈ l, s.stop ≤ total) →
      List.Pairwise segLE l →
      (inKeeps (App.invertAux total l cur) x ↔
        (cur ≤ x ∧ x < total ∧ ∀ s ∈ l, ¬ (s.start ≤ x ∧ x < s.stop))) := by
  intro l
  induction l with
  | nil =>
      intro cur x _ _ _ _
      simp only [App.invertAux, List.not_mem_nil, false_and]
      split
      · rw [inKeeps_cons, inKeeps_nil]
        simp only [or_false]
        constructor
        · rintro ⟨h1, h2⟩
          exact ⟨h1, h2, fun s hs => hs.elim⟩
        · rintro ⟨h1, h2, _⟩
          exact ⟨h1, h2⟩
      · rw [inKeeps_nil]
        constructor
        · exact fun h => h.elim
        · rintro ⟨h1, h2, _⟩
          exact absurd (lt_of_le_of_lt h1 h2) (by assumption)
  | cons s l ih =>
      intro cur x hcur h1 h2 hp
      have hs1 : s.start ≤ s.stop := h1 s (List.mem_cons_self s l)
      have hs2 : s.stop ≤ total := h2 s (List.mem_cons_self s l)
      have h1t : ∀ u ∈ l, u.start ≤ u.stop := fun u hu => h1 u (List.mem_cons_of_mem s hu)
      have h2t : ∀ u ∈ l, u.stop ≤ total := fun u hu => h2 u (List.mem_cons_of_mem s hu)
      have hpt : List.Pairwise segLE l := (List.pairwise_cons.mp hp).2
      have hph : ∀ u ∈ l, s.start ≤ u.start := (List.pairwise_cons.mp hp).1
      have hb : min total s.stop = s.stop := min_eq_right hs2
      have hcur2 : (0 : ℚ) ≤ max cur (min total s.stop) := le_trans hcur (le_max_left _ _)
      have ihx := ih (max cur (min total s.stop)) x hcur2 h1t h2t hpt
      simp only [App.invertAux]
      rw [List.forall_mem_cons]
      split
      · have hca : cur < max 0 s.start := by assumption
        have ha : max 0 s.start = s.start := by
          rcases max_cases (0 : ℚ) s.start with ⟨h, _⟩ | ⟨h, _⟩
          · exfalso; rw [h] at hca; linarith
          · exact h
        rw [inKeeps_cons, ihx, hb, ha]
        constructor
        · rintro (⟨hx1, hx2⟩ | ⟨hx1, hx2, hx3⟩)
          · refine ⟨hx1, by linarith, fun hc => by linarith [hc.1], ?_⟩
            intro u hu hc
            have := hph u hu
            linarith [hc.1]
          · have hbx : s.stop ≤ x := le_trans (le_max_right cur s.stop) hx1
            refine ⟨le_trans (le_max_left cur s.stop) hx1, hx2, fun hc => by linarith [hc.2], hx3⟩
        · rintro ⟨hx1, hx2, hxs, hxl⟩
          by_cases hxa : x < s.start
          · exact Or.inl ⟨hx1, hxa⟩
          · refine Or.inr ⟨max_le hx1 ?_, hx2, hxl⟩
            by_contra hbx
            exact hxs ⟨not_lt.mp hxa, not_le.mp hbx⟩
      · have hca : ¬ cur < max 0 s.start := by assumption
        have has : s.start ≤ cur := le_trans (le_max_right 0 s.start) (not_lt.mp hca)
        rw [ihx, hb]
        constructor
        · rintro ⟨hx1, hx2, hx3⟩
          have hbx : s.stop ≤ x := le_trans (le_max_right cur s.stop) hx1
          exact ⟨le_trans (le_max_left cur s.stop) hx1, hx2, fun hc => by linarith [hc.2], hx3⟩
        · rintro ⟨hx1, hx2, hxs, hxl⟩
          refine ⟨max_le hx1 ?_, hx2, hxl⟩
          by_contra hbx
          exact hxs ⟨le_trans has hx1, not_le.mp hbx⟩

theorem invert_segments_mem (segs : List Segment) (total x : ℚ)
    (h1 : ∀ s ∈ segs, s.start ≤ s.stop) (h2 : ∀ s ∈ segs, s.stop ≤ total) :
    inKeeps (App.invert_segments segs total) x ↔
      (0 ≤ x ∧ x < total ∧ ∀ s ∈ segs, ¬ (s.start ≤ x ∧ x < s.stop)) := by
  unfold App.invert_segments
  rw [invertAux_mem total _ 0 x le_rfl
    (fun s hs => h1 s ((List.mem_insertionSort segLE).mp hs))
    (fun s hs => h2 s ((List.mem_insertionSort segLE).mp hs))
    (List.sorted_insertionSort segLE segs)]
  constructor
  · rintro ⟨hx1, hx2, hx3⟩
    exact ⟨hx1, hx2, fun s hs => hx3 s ((List.mem_insertionSort segLE).mpr hs)⟩
  · rintro ⟨hx1, hx2, hx3⟩
    exact ⟨hx1, hx2, fun s hs => hx3 s ((List.mem_insertionSort segLE).mp hs)⟩

theorem tupLE_fst {u v : ℚ × ℚ × String} (h : tupLE u v) : u.1 ≤ v.1 := by
  rcases h with h | ⟨he, _⟩
  · exact le_of_lt h
  · exact le_of_eq he

theorem sweepGo_mem :
    ∀ (rest : List (ℚ × ℚ × String)) (a b : ℚ) (cats : List String) (x : ℚ),
      (∀ t ∈ rest, a ≤ t.1) →
      List.Pairwise (fun u v : ℚ × ℚ × String => u.1 ≤ v.1) rest →
      ((∃ m ∈ App.sweepGo a b cats rest, m.1 ≤ x ∧ x < m.2.1) ↔
        ((a ≤ x ∧ x < b) ∨ ∃ t ∈ rest, t.1 ≤ x ∧ x < t.2.1)) := by
  intro rest
  induction rest with
  | nil =>
      intro a b cats x _ _
      simp [App.sweepGo]
  | cons u rest ih =>
      intro a b cats x hhead hp
      obtain ⟨a2, b2, c2⟩ := u
      have ha2 : a ≤ a2 := hhead (a2, b2, c2) (List.mem_cons_self _ _)
      have hrest : ∀ t ∈ rest, a ≤ t.1 := fun t ht => hhead t (List.mem_cons_of_mem _ ht)
      have hph : ∀ t ∈ rest, a2 ≤ t.1 := (List.pairwise_cons.mp hp).1
      have hpt := (List.pairwise_cons.mp hp).2
      simp only [App.sweepGo]
      split
      · have hba : b < a2 := by assumption
        rw [List.exists_mem_cons_iff, List.exists_mem_cons_iff, ih a2 b2 [c2] x hph hpt]
      · have hba : a2 ≤ b := not_lt.mp (by assumption)
        rw [ih a (max b b2) (App.addCat cats c2) x hrest hpt, List.exists_mem_cons_iff]
        constructor
        · rintro (⟨h1, h2⟩ | h)
          · rcases lt_or_le x b with hxb | hxb
            · exact Or.inl ⟨h1, hxb⟩
            · have hxb2 : x < b2 := by
                rcases lt_max_iff.mp h2 with h | h
                · exact absurd h (not_lt.mpr hxb)
                · exact h
              exact Or.inr (Or.inl ⟨le_trans hba hxb, hxb2⟩)
          · exact Or.inr (Or.inr h)
        · rintro (⟨h1, h2⟩ | ⟨h1, h2⟩ | h)
          · exact Or.inl ⟨h1, lt_of_lt_of_le h2 (le_max_left b b2)⟩
          · exact Or.inl ⟨le_trans ha2 h1, lt_of_lt_of_le h2 (le_max_right b b2)⟩
          · exact Or.inr h

theorem merge_overlaps_mem (segs : List Segment) (margin x : ℚ) :
    inMerged (App.merge_overlaps segs margin) x ↔
      ∃ s ∈ segs, max 0 (s.start - margin) ≤ x ∧ x < s.stop + margin := by
  have hmem : ∀ t : ℚ × ℚ × String,
      t ∈ List.insertionSort tupLE (segs.map (App.toTuple margin)) ↔
        ∃ s ∈ segs, App.toTuple margin s = t := by
    intro t
    rw [List.mem_insertionSort tupLE, List.mem_map]
  have hgoal : (∃ t ∈ List.insertionSort tupLE (segs.map (App.toTuple margin)),
      t.1 ≤ x ∧ x < t.2.1) ↔
      ∃ s ∈ segs, max 0 (s.start - margin) ≤ x ∧ x < s.stop + margin := by
    constructor
    · rintro ⟨t, ht, hc1, hc2⟩
      obtain ⟨s, hs, rfl⟩ := (hmem t).mp ht
      exact ⟨s, hs, hc1, hc2⟩
    · rintro ⟨s, hs, hc1, hc2⟩
      exact ⟨App.toTuple margin s, (hmem _).mpr ⟨s, hs, rfl⟩, hc1, hc2⟩
  rw [← hgoal]
  unfold App.merge_overlaps
  have hsort := List.sorted_insertionSort tupLE (segs.map (App.toTuple margin))
  cases hts : List.insertionSort tupLE (segs.map (App.toTuple margin)) with
  | nil =>
      simp [inMerged]
  | cons u rest =>
      obtain ⟨a, b, c⟩ := u
      rw [hts] at hsort
      have hph : ∀ t ∈ rest, a ≤ t.1 :=
        fun t ht => tupLE_fst ((List.pairwise_cons.mp hsort).1 t ht)
      have hpt : List.Pairwise (fun u v : ℚ × ℚ × String => u.1 ≤ v.1) rest :=
        ((List.pairwise_cons.mp hsort).2).imp (fun h => tupLE_fst h)
      have hmap : inMerged ((App.sweepGo a b [c] rest).map
          (fun y => ⟨y.1, y.2.1, App.sortStrings y.2.2⟩)) x ↔
          ∃ y ∈ App.sweepGo a b [c] rest, y.1 ≤ x ∧ x < y.2.1 := by
        constructor
        · rintro ⟨m, hm, hc1, hc2⟩
          obtain ⟨y, hy, rfl⟩ := List.mem_map.mp hm
          exact ⟨y, hy, hc1, hc2⟩
        · rintro ⟨y, hy, hc1, hc2⟩
          exact ⟨⟨y.1, y.2.1, App.sortStrings y.2.2⟩, List.mem_map.mpr ⟨y, hy, rfl⟩, hc1, hc2⟩
      rw [hmap, sweepGo_mem rest a b [c] x hph hpt, List.exists_mem_cons_iff]

/-- C1 is false as stated: with the single segment `[5, 10]` and total
duration 10, the time 3 lies in the kept interval `[0, 5)` and remaps to 3,
while the time 7 lies in the trailing removed region and remaps to the last
kept interval's `newStart` 0, so `t1 < t2` with `remapFn(t1) > remapFn(t2)`. -/
theorem C1_counterexample :
    (3 : ℚ) < 7 ∧
    (App.build_time_remap [⟨5, 10, "sponsor"⟩] 10).1 3 = 3 ∧
    (App.build_time_remap [⟨5, 10, "sponsor"⟩] 10).1 7 = 0 ∧
    ¬ ((App.build_time_remap [⟨5, 10, "sponsor"⟩] 10).1 3 ≤
        (App.build_time_remap [⟨5, 10, "sponsor"⟩] 10).1 7) := by
  refine ⟨by norm_num, ?_, ?_, ?_⟩ <;>
    norm_num [App.build_time_remap, App.buildMapping, App.invert_segments, App.invertAux,
      App.remapGo, App.lastNewStart, List.insertionSort, List.orderedInsert]

/-- C1 (amended): under the Segment data-model invariant (`start <= end`,
segment ends within the total duration), the remap function is monotone on
every pair `t1 <= t2` such that `t2` does not lie beyond the last kept
interval's original end; beyond all kept intervals the function returns the
last interval's `newStart`, which breaks global monotonicity. -/
theorem C1_remap_monotone_within_kept_range (segs : List Segment) (total t1 t2 : ℚ)
    (h1 : ∀ s ∈ segs, s.start ≤ s.stop) (h2 : ∀ s ∈ segs, s.stop ≤ total)
    (h12 : t1 ≤ t2)
    (hin : (App.build_time_remap segs total).2 = [] ∨
      t2 ≤ App.lastOrigEnd (App.build_time_remap segs total).2) :
    (App.build_time_remap segs total).1 t1 ≤ (App.build_time_remap segs total).1 t2 := by
  have hwf : WFmap (App.buildMapping (App.invert_segments segs total) 0) :=
    buildMapping_wf _ 0 (invert_segments_chain segs total h1 h2)
  simp only [App.build_time_remap] at hin ⊢
  exact remapGo_mono _ _ t1 t2 hwf le_rfl h12 hin

/-- C1 witness: with segment `[2, 4]` in a duration of 10, remap is monotone
between 1 and 5, both at or before the last kept interval's original end 10. -/
theorem C1_witness :
    (App.build_time_remap [⟨2, 4, "sponsor"⟩] 10).1 1 ≤
      (App.build_time_remap [⟨2, 4, "sponsor"⟩] 10).1 5 := by
  refine C1_remap_monotone_within_kept_range [⟨2, 4, "sponsor"⟩] 10 1 5 ?_ ?_ (by norm_num) ?_
  · intro s hs
    simp only [List.mem_singleton] at hs
    subst hs
    norm_num
  · intro s hs
    simp only [List.mem_singleton] at hs
    subst hs
    norm_num
  · right
    norm_num [App.build_time_remap, App.buildMapping, App.invert_segments, App.invertAux,
      App.lastOrigEnd, List.insertionSort, List.orderedInsert]

/-- C4: for segments satisfying the data-model invariant `start <= end` and a
total duration at least every segment end, the `invert_segments` output is a
pairwise-disjoint ascending interval list, and each point of `[0, total)`
lies in the kept intervals exactly when it does not lie in the merged
segments: together they cover `[0, total)` with no gap and no double
coverage. -/
theorem C4_keep_merge_partition (segs : List Segment) (total : ℚ)
    (h1 : ∀ s ∈ segs, s.start ≤ s.stop) (h2 : ∀ s ∈ segs, s.stop ≤ total) :
    KeepChain (App.invert_segments segs total) ∧
    ∀ x : ℚ, 0 ≤ x → x < total →
      (inKeeps (App.invert_segments segs total) x ↔
        ¬ inMerged (App.merge_overlaps segs 0) x) := by
  refine ⟨invert_segments_chain segs total h1 h2, ?_⟩
  intro x hx hxt
  rw [invert_segments_mem segs total x h1 h2, merge_overlaps_mem segs 0 x]
  constructor
  · rintro ⟨_, _, h3⟩ ⟨s, hs, hc1, hc2⟩
    apply h3 s hs
    rw [sub_zero] at hc1
    rw [add_zero] at hc2
    exact ⟨le_trans (le_max_right 0 s.start) hc1, hc2⟩
  · intro hm
    refine ⟨hx, hxt, ?_⟩
    intro s hs hc
    apply hm
    refine ⟨s, hs, ?_, ?_⟩
    · rw [sub_zero]
      exact max_le hx hc.1
    · rw [add_zero]
      exact hc.2

/-- C4 witness: segment `[10, 20]` in a duration of 50, partition tested at
the point 5. -/
theorem C4_witness :
    KeepChain (App.invert_segments [⟨10, 20, "sponsor"⟩] 50) ∧
    (inKeeps (App.invert_segments [⟨10, 20, "sponsor"⟩] 50) 5 ↔
      ¬ inMerged (App.merge_overlaps [⟨10, 20, "sponsor"⟩] 0) 5) := by
  have h := C4_keep_merge_partition [⟨10, 20, "sponsor"⟩] 50
    (by
      intro s hs
      simp only [List.mem_singleton] at hs
      subst hs
      norm_num)
    (by
      intro s hs
      simp only [List.mem_singleton] at hs
      subst hs
      norm_num)
  exact ⟨h.1, h.2 5 (by norm_num) (by norm_num)⟩

/-! Lemmas about the structure of merged output, used for idempotence. -/

theorem sweepGo_head_fst :
    ∀ (rest : List (ℚ × ℚ × String)) (a b : ℚ) (cats : List String),
      ∃ p : ℚ × List String, ∃ tail,
        App.sweepGo a b cats rest = (a, p.1, p.2) :: tail := by
  intro rest
  induction rest with
  | nil => intro a b cats; exact ⟨(b, cats), [], rfl⟩
  | cons u rest ih =>
      intro a b cats
      obtain ⟨a2, b2, c2⟩ := u
      simp only [App.sweepGo]
      split
      · exact ⟨(b, cats), _, rfl⟩
      · exact ih a (max b b2) (App.addCat cats c2)

theorem sweepGo_chain :
    ∀ (rest : List (ℚ × ℚ × String)) (a b : ℚ) (cats : List String),
      a ≤ b → (∀ t ∈ rest, t.1 ≤ t.2.1) →
      List.Pairwise (fun u v : ℚ × ℚ × String => u.1 ≤ v.1) rest →
      SweepChain (App.sweepGo a b cats rest) := by
  intro rest
  induction rest with
  | nil => intro a b cats hab _ _; exact hab
  | cons u rest ih =>
      intro a b cats hab hwf hp
      obtain ⟨a2, b2, c2⟩ := u
      have hwf2 : a2 ≤ b2 := hwf (a2, b2, c2) (List.mem_cons_self _ _)
      have hwft : ∀ t ∈ rest, t.1 ≤ t.2.1 := fun t ht => hwf t (List.mem_cons_of_mem _ ht)
      have hph : ∀ t ∈ rest, a2 ≤ t.1 := (List.pairwise_cons.mp hp).1
      have hpt := (List.pairwise_cons.mp hp).2
      simp only [App.sweepGo]
      split
      · have hba : b < a2 := by assumption
        obtain ⟨p, tail, hS⟩ := sweepGo_head_fst rest a2 b2 [c2]
        rw [hS]
        have hchain : SweepChain ((a2, p.1, p.2) :: tail) := by
          rw [← hS]
          exact ih a2 b2 [c2] hwf2 hwft hpt
        exact ⟨hab, hba, hchain⟩
      · exact ih a (max b b2) (App.addCat cats c2)
          (le_trans hab (le_max_left b b2)) hwft hpt

theorem sweepChain_map (S : List (ℚ × ℚ × List String)) (h : SweepChain S) :
    MergedChain (S.map (fun y => ⟨y.1, y.2.1, App.sortStrings y.2.2⟩)) := by
  induction S with
  | nil => trivial
  | cons y S ih =>
      cases S with
      | nil => exact h
      | cons z rest => exact ⟨h.1, h.2.1, ih h.2.2⟩

theorem merge_overlaps_chain (segs : List Segment)
    (h0 : ∀ s ∈ segs, 0 ≤ s.start) (h1 : ∀ s ∈ segs, s.start ≤ s.stop) :
    MergedChain (App.merge_overlaps segs 0) := by
  have hwf : ∀ t ∈ List.insertionSort tupLE (segs.map (App.toTuple 0)), t.1 ≤ t.2.1 := by
    intro t ht
    obtain ⟨s, hs, rfl⟩ := List.mem_map.mp ((List.mem_insertionSort tupLE).mp ht)
    show max 0 (s.start - 0) ≤ s.stop + 0
    rw [sub_zero, add_zero]
    exact max_le (le_trans (h0 s hs) (h1 s hs)) (h1 s hs)
  have hsort := List.sorted_insertionSort tupLE (segs.map (App.toTuple 0))
  unfold App.merge_overlaps
  cases hts : List.insertionSort tupLE (segs.map (App.toTuple 0)) with
  | nil => trivial
  | cons u rest =>
      obtain ⟨a, b, c⟩ := u
      rw [hts] at hsort hwf
      apply sweepChain_map
      refine sweepGo_chain rest a b [c] (hwf (a, b, c) (List.mem_cons_self _ _))
        (fun t ht => hwf t (List.mem_cons_of_mem _ ht)) ?_
      exact ((List.pairwise_cons.mp hsort).2).imp (fun h => tupLE_fst h)

theorem sweepGo_fst_mem :
    ∀ (rest : List (ℚ × ℚ × String)) (a b : ℚ) (cats : List String),
      ∀ y ∈ App.sweepGo a b cats rest, y.1 = a ∨ ∃ t ∈ rest, y.1 = t.1 := by
  intro rest
  induction rest with
  | nil =>
      intro a b cats y hy
      simp only [App.sweepGo, List.mem_singleton] at hy
      subst hy
      exact Or.inl rfl
  | cons u rest ih =>
      intro a b cats y hy
      obtain ⟨a2, b2, c2⟩ := u
      simp only [App.sweepGo] at hy
      split at hy
      · rcases List.mem_cons.mp hy with h | h
        · subst h
          exact Or.inl rfl
        · rcases ih a2 b2 [c2] y h with h2 | ⟨t, ht, h2⟩
          · exact Or.inr ⟨(a2, b2, c2), List.mem_cons_self _ _, h2⟩
          · exact Or.inr ⟨t, List.mem_cons_of_mem _ ht, h2⟩
      · rcases ih a (max b b2) (App.addCat cats c2) y hy with h2 | ⟨t, ht, h2⟩
        · exact Or.inl h2
        · exact Or.inr ⟨t, List.mem_cons_of_mem _ ht, h2⟩

theorem merge_overlaps_start_nonneg (segs : List Segment) (margin : ℚ) :
    ∀ m ∈ App.merge_overlaps segs margin, 0 ≤ m.start := by
  have hnn : ∀ t ∈ List.insertionSort tupLE (segs.map (App.toTuple margin)), 0 ≤ t.1 := by
    intro t ht
    obtain ⟨s, hs, rfl⟩ := List.mem_map.mp ((List.mem_insertionSort tupLE).mp ht)
    exact le_max_left 0 (s.start - margin)
  unfold App.merge_overlaps
  cases hts : List.insertionSort tupLE (segs.map (App.toTuple margin)) with
  | nil => intro m hm; exact absurd hm (List.not_mem_nil m)
  | cons u rest =>
      obtain ⟨a, b, c⟩ := u
      rw [hts] at hnn
      intro m hm
      obtain ⟨y, hy, rfl⟩ := List.mem_map.mp hm
      show (0 : ℚ) ≤ y.1
      rcases sweepGo_fst_mem rest a b [c] y hy with h | ⟨t, ht, h⟩
      · rw [h]
        exact hnn (a, b, c) (List.mem_cons_self _ _)
      · rw [h]
        exact hnn t (List.mem_cons_of_mem _ ht)

theorem mergedChain_head_le {n : MergedSegment} {rest : List MergedSegment}
    (h : MergedChain (n :: rest)) : n.start ≤ n.stop := by
  cases rest with
  | nil => exact h
  | cons z r => exact h.1

theorem mergedChain_tail {n : MergedSegment} {rest : List MergedSegment}
    (h : MergedChain (n :: rest)) : MergedChain rest := by
  cases rest with
  | nil => trivial
  | cons z r => exact h.2.2

theorem mergedChain_pairwise :
    ∀ M : List MergedSegment, MergedChain M →
      List.Pairwise (fun m n : MergedSegment => m.stop < n.start) M := by
  intro M
  induction M with
  | nil => intro _; exact List.Pairwise.nil
  | cons m M ih =>
      intro h
      cases M with
      | nil => exact List.pairwise_singleton _ m
      | cons n rest =>
          obtain ⟨h1, h2, h3⟩ := h
          have hp := ih h3
          refine List.pairwise_cons.mpr ⟨?_, hp⟩
          intro r hr
          rcases List.mem_cons.mp hr with h4 | h4
          · subst h4
            exact h2
          · have h5 : n.stop < r.start := (List.pairwise_cons.mp hp).1 r h4
            have h6 : n.start ≤ n.stop := mergedChain_head_le h3
            linarith

theorem mergedChain_mem_le :
    ∀ M : List MergedSegment, MergedChain M → ∀ m ∈ M, m.start ≤ m.stop := by
  intro M
  induction M with
  | nil => intro _ m hm; exact absurd hm (List.not_mem_nil m)
  | cons n M ih =>
      intro h m hm
      rcases List.mem_cons.mp hm with h1 | h1
      · subst h1
        exact mergedChain_head_le h
      · exact ih (mergedChain_tail h) m h1

theorem mergedChain_tupSep (f : MergedSegment → String) :
    ∀ M : List MergedSegment, MergedChain M →
      TupSep (M.map (fun m => (m.start, m.stop, f m))) := by
  intro M
  induction M with
  | nil => intro _; trivial
  | cons m M ih =>
      intro h
      cases M with
      | nil => trivial
      | cons n rest => exact ⟨h.2.1, ih (mergedChain_tail h)⟩

theorem tupSep_tail {u : ℚ × ℚ × String} {rest : List (ℚ × ℚ × String)}
    (h : TupSep (u :: rest)) : TupSep rest := by
  cases rest with
  | nil => trivial
  | cons v r => exact h.2

theorem sweepGo_eq_of_sep :
    ∀ (rest : List (ℚ × ℚ × String)) (a b : ℚ) (cats : List String),
      (∀ v ∈ rest.head?, b < v.1) → TupSep rest →
      App.sweepGo a b cats rest =
        (a, b, cats) :: rest.map (fun t => (t.1, t.2.1, [t.2.2])) := by
  intro rest
  induction rest with
  | nil => intro a b cats _ _; rfl
  | cons u rest ih =>
      intro a b cats hhead hsep
      obtain ⟨a2, b2, c2⟩ := u
      have hba : b < a2 := hhead (a2, b2, c2) rfl
      simp only [App.sweepGo, if_pos hba]
      rw [ih a2 b2 [c2] ?_ (tupSep_tail hsep)]
      · rfl
      · intro v hv
        cases rest with
        | nil => exact absurd hv (by simp)
        | cons w r =>
            simp only [List.head?_cons, Option.mem_some_iff] at hv
            subst hv
            exact hsep.1

theorem remerge_eq_of_chain (M : List MergedSegment) (f : MergedSegment → String)
    (hchain : MergedChain M) (hnn : ∀ m ∈ M, 0 ≤ m.start) :
    App.merge_overlaps (M.map (fun m => ⟨m.start, m.stop, f m⟩)) 0
      = M.map (fun m => ⟨m.start, m.stop, [f m]⟩) := by
  have hle : ∀ m ∈ M, m.start ≤ m.stop := mergedChain_mem_le M hchain
  have htup : ((M.map (fun m => (⟨m.start, m.stop, f m⟩ : Segment))).map (App.toTuple 0))
      = M.map (fun m => (m.start, m.stop, f m)) := by
    rw [List.map_map]
    apply List.map_congr_left
    intro m hm
    show App.toTuple 0 ⟨m.start, m.stop, f m⟩ = (m.start, m.stop, f m)
    unfold App.toTuple
    simp only
    rw [sub_zero, add_zero, max_eq_right (hnn m hm)]
  have hpair2 : List.Pairwise (fun m n : MergedSegment => m.start < n.start) M := by
    refine (mergedChain_pairwise M hchain).imp_of_mem ?_
    intro a b ha _ h
    exact lt_of_le_of_lt (hle a ha) h
  have hsorted : List.Sorted tupLE (M.map (fun m => (m.start, m.stop, f m))) :=
    List.Pairwise.map _ (fun a b h => Or.inl h) hpair2
  unfold App.merge_overlaps
  rw [htup, List.Sorted.insertionSort_eq hsorted]
  cases M with
  | nil => rfl
  | cons m M2 =>
      simp only [List.map_cons]
      have hsep : TupSep (M2.map (fun n => (n.start, n.stop, f n))) :=
        mergedChain_tupSep f M2 (mergedChain_tail hchain)
      have hhead : ∀ v ∈ (M2.map (fun n => (n.start, n.stop, f n))).head?, m.stop < v.1 := by
        intro v hv
        cases M2 with
        | nil => exact absurd hv (by simp)
        | cons n r =>
            simp only [List.map_cons, List.head?_cons, Option.mem_some_iff] at hv
            subst hv
            exact hchain.2.1
      rw [sweepGo_eq_of_sep (M2.map (fun n => (n.start, n.stop, f n))) m.start m.stop
        [f m] hhead hsep]
      simp only [List.map_cons, List.map_map]
      rfl

/-- C6 is false as stated: merging the already-merged list is not the
identity.  The merged output of `[{0,1,sponsor}, {0,1,intro}]` is the single
segment `{0, 1, categories [intro, sponsor]}`; its output records the
category set under the key `categories` whereas merge reads the key
`category` of each input (re-merging literally raises KeyError in the
source), and under the closest typed reading, which feeds the intervals back
with a single representative category, the category sets collapse, so the
result differs from the merged list. -/
theorem C6_counterexample :
    App.merge_overlaps [⟨0, 1, "sponsor"⟩, ⟨0, 1, "intro"⟩] 0 =
      [⟨0, 1, ["intro", "sponsor"]⟩] ∧
    App.merge_overlaps
        ((App.merge_overlaps [⟨0, 1, "sponsor"⟩, ⟨0, 1, "intro"⟩] 0).map
          (fun m => ⟨m.start, m.stop, m.categories.headI⟩)) 0 =
      [⟨0, 1, ["intro"]⟩] ∧
    App.merge_overlaps
        ((App.merge_overlaps [⟨0, 1, "sponsor"⟩, ⟨0, 1, "intro"⟩] 0).map
          (fun m => ⟨m.start, m.stop, m.categories.headI⟩)) 0 ≠
      App.merge_overlaps [⟨0, 1, "sponsor"⟩, ⟨0, 1, "intro"⟩] 0 := by
  have h1 : App.merge_overlaps [⟨0, 1, "sponsor"⟩, ⟨0, 1, "intro"⟩] 0 =
      [⟨0, 1, ["intro", "sponsor"]⟩] := by
    norm_num [App.merge_overlaps, App.toTuple, tupLE, List.insertionSort, List.orderedInsert]
    rw [if_neg
      (by decide : ¬ (['s','p','o','n','s','o','r'] ≤ (['i','n','t','r','o'] : List Char)))]
    norm_num [App.sweepGo, App.addCat, App.sortStrings, List.insertionSort, List.orderedInsert]
    intro h
    exact absurd h (by decide)
  have h2 : App.merge_overlaps
      ((App.merge_overlaps [⟨0, 1, "sponsor"⟩, ⟨0, 1, "intro"⟩] 0).map
        (fun m => ⟨m.start, m.stop, m.categories.headI⟩)) 0 = [⟨0, 1, ["intro"]⟩] := by
    rw [h1]
    norm_num [App.merge_overlaps, App.toTuple, tupLE, App.sweepGo, App.addCat, App.sortStrings,
      List.insertionSort, List.orderedInsert]
  refine ⟨h1, h2, ?_⟩
  rw [h2, h1]
  intro h
  simp at h

/-- C6 (amended): at the interval level merging is idempotent for segments
with `0 <= start <= end`: re-merging the merged output, with each merged
segment viewed as a segment carrying any single category, preserves every
start and end exactly (each resulting category set is the corresponding
singleton); the full category sets are not preserved, and the literal
composition is not executable in the source because merge's output stores
`categories` while its input requires `category`. -/
theorem C6_merge_idempotent_on_intervals (segs : List Segment) (f : MergedSegment → String)
    (h0 : ∀ s ∈ segs, 0 ≤ s.start) (h1 : ∀ s ∈ segs, s.start ≤ s.stop) :
    App.merge_overlaps ((App.merge_overlaps segs 0).map (fun m => ⟨m.start, m.stop, f m⟩)) 0
      = (App.merge_overlaps segs 0).map (fun m => ⟨m.start, m.stop, [f m]⟩) :=
  remerge_eq_of_chain (App.merge_overlaps segs 0) f
    (merge_overlaps_chain segs h0 h1)
    (merge_overlaps_start_nonneg segs 0)

/-- C6 witness: re-merging the merged output of two overlapping segments
keeps the merged interval `[10, 25)` unchanged. -/
theorem C6_witness :
    App.merge_overlaps
        ((App.merge_overlaps [⟨10, 20, "sponsor"⟩, ⟨15, 25, "intro"⟩] 0).map
          (fun m => ⟨m.start, m.stop, m.categories.headI⟩)) 0
      = (App.merge_overlaps [⟨10, 20, "sponsor"⟩, ⟨15, 25, "intro"⟩] 0).map
          (fun m => ⟨m.start, m.stop, [m.categories.headI]⟩) := by
  refine C6_merge_idempotent_on_intervals [⟨10, 20, "sponsor"⟩, ⟨15, 25, "intro"⟩]
    (fun m => m.categories.headI) ?_ ?_
  · intro s hs
    rcases List.mem_cons.mp hs with h | h
    · subst h; norm_num
    · simp only [List.mem_singleton] at h
      subst h; norm_num
  · intro s hs
    rcases List.mem_cons.mp hs with h | h
    · subst h; norm_num
    · simp only [List.mem_singleton] at h
      subst h; norm_num

/-! Lemmas about the keyframe scan. -/

theorem kfScan_go (target : ℚ) :
    ∀ (l : List ℚ) (best d : ℚ),
      d = |best - target| → (∀ k ∈ l, best ≤ k) →
      List.Pairwise (fun a b : ℚ => a ≤ b) l →
      ((App.kfScan target best (some d) l = best ∨ App.kfScan target best (some d) l ∈ l) ∧
       |App.kfScan target best (some d) l - target| ≤ d ∧
       (∀ k ∈ l, |App.kfScan target best (some d) l - target| ≤ |k - target|) ∧
       (|App.kfScan target best (some d) l - target| = d →
         App.kfScan target best (some d) l = best) ∧
       (∀ k ∈ l, |k - target| = |App.kfScan target best (some d) l - target| →
         App.kfScan target best (some d) l ≤ k)) := by
  intro l
  induction l with
  | nil =>
      intro best d hd _ _
      refine ⟨Or.inl rfl, le_of_eq hd.symm, ?_, fun _ => rfl, ?_⟩
      · intro k hk
        exact absurd hk (List.not_mem_nil k)
      · intro k hk
        exact absurd hk (List.not_mem_nil k)
  | cons k l ih =>
      intro best d hd hmem hp
      have hbk : best ≤ k := hmem k (List.mem_cons_self k l)
      have hmt : ∀ j ∈ l, best ≤ j := fun j hj => hmem j (List.mem_cons_of_mem k hj)
      have hkl : ∀ j ∈ l, k ≤ j := (List.pairwise_cons.mp hp).1
      have hpt := (List.pairwise_cons.mp hp).2
      simp only [App.kfScan]
      by_cases hlt : |k - target| < d
      · rw [if_pos hlt]
        obtain ⟨i1, i2, i3, i4, i5⟩ := ih k (|k - target|) rfl hkl hpt
        refine ⟨?_, le_of_lt (lt_of_le_of_lt i2 hlt), ?_, ?_, ?_⟩
        · rcases i1 with h | h
          · refine Or.inr ?_
            rw [h]
            exact List.mem_cons_self k l
          · exact Or.inr (List.mem_cons_of_mem k h)
        · intro j hj
          rcases List.mem_cons.mp hj with h | h
          · rw [h]
            exact i2
          · exact i3 j h
        · intro h4
          exfalso
          have := lt_of_le_of_lt i2 hlt
          linarith [this, h4.ge, h4.le]
        · intro j hj h5
          rcases List.mem_cons.mp hj with h | h
          · rw [h] at h5 ⊢
            exact le_of_eq (i4 h5.symm)
          · exact i5 j h h5
      · rw [if_neg hlt]
        have hge : d ≤ |k - target| := not_lt.mp hlt
        obtain ⟨i1, i2, i3, i4, i5⟩ := ih best d hd hmt hpt
        refine ⟨?_, i2, ?_, i4, ?_⟩
        · rcases i1 with h | h
          · exact Or.inl h
          · exact Or.inr (List.mem_cons_of_mem k h)
        · intro j hj
          rcases List.mem_cons.mp hj with h | h
          · rw [h]
            exact le_trans i2 hge
          · exact i3 j h
        · intro j hj h5
          rcases List.mem_cons.mp hj with h | h
          · subst h
            have h6 : |App.kfScan target best (some d) l - target| = d :=
              le_antisymm i2 (h5 ▸ hge)
            exact le_trans (le_of_eq (i4 h6)) hbk
          · exact i5 j h h5

theorem kfScan_nearest (target init k : ℚ) (l : List ℚ)
    (hp : List.Pairwise (fun a b : ℚ => a ≤ b) (k :: l)) :
    (App.kfScan target init none (k :: l) ∈ (k :: l)) ∧
    (∀ j ∈ (k :: l), |App.kfScan target init none (k :: l) - target| ≤ |j - target|) ∧
    (∀ j ∈ (k :: l), |j - target| = |App.kfScan target init none (k :: l) - target| →
      App.kfScan target init none (k :: l) ≤ j) := by
  have hstep : App.kfScan target init none (k :: l) =
      App.kfScan target k (some (|k - target|)) l := by
    simp [App.kfScan]
  rw [hstep]
  obtain ⟨i1, i2, i3, i4, i5⟩ := kfScan_go target l k (|k - target|) rfl
    (List.pairwise_cons.mp hp).1 (List.pairwise_cons.mp hp).2
  refine ⟨?_, ?_, ?_⟩
  · rcases i1 with h | h
    · rw [h]
      exact List.mem_cons_self k l
    · exact List.mem_cons_of_mem k h
  · intro j hj
    rcases List.mem_cons.mp hj with h | h
    · rw [h]
      exact i2
    · exact i3 j h
  · intro j hj h5
    rcases List.mem_cons.mp hj with h | h
    · subst h
      exact le_of_eq (i4 h5.symm)
    · exact i5 j h h5

/-- C7: for a non-empty ascending keyframe list, each endpoint of the
returned pair is a keyframe minimizing the absolute difference to the
requested endpoint, with ties resolved to the first-scanned (lowest)
keyframe under the strict-less-than update; an empty keyframe list returns
the request unchanged; and the spec example `[0,5,10,15]` with request
`(4,11)` yields `(5,10)`. -/
theorem C7_find_nearest_keyframes (keyframes : List ℚ) (s e : ℤ)
    (hsort : List.Pairwise (fun a b : ℚ => a ≤ b) keyframes) (hne : keyframes ≠ []) :
    ((App.find_nearest_keyframes keyframes s e).1 ∈ keyframes ∧
     (∀ k ∈ keyframes,
       |(App.find_nearest_keyframes keyframes s e).1 - (s : ℚ)| ≤ |k - (s : ℚ)|) ∧
     (∀ k ∈ keyframes,
       |k - (s : ℚ)| = |(App.find_nearest_keyframes keyframes s e).1 - (s : ℚ)| →
         (App.find_nearest_keyframes keyframes s e).1 ≤ k)) ∧
    ((App.find_nearest_keyframes keyframes s e).2 ∈ keyframes ∧
     (∀ k ∈ keyframes,
       |(App.find_nearest_keyframes keyframes s e).2 - (e : ℚ)| ≤ |k - (e : ℚ)|) ∧
     (∀ k ∈ keyframes,
       |k - (e : ℚ)| = |(App.find_nearest_keyframes keyframes s e).2 - (e : ℚ)| →
         (App.find_nearest_keyframes keyframes s e).2 ≤ k)) ∧
    App.find_nearest_keyframes [] s e = ((s : ℚ), (e : ℚ)) ∧
    App.find_nearest_keyframes [0, 5, 10, 15] 4 11 = ((5 : ℚ), (10 : ℚ)) := by
  cases keyframes with
  | nil => exact absurd rfl hne
  | cons k l =>
      refine ⟨?_, ?_, rfl, ?_⟩
      · exact kfScan_nearest (s : ℚ) (s : ℚ) k l hsort
      · exact kfScan_nearest (e : ℚ) (e : ℚ) k l hsort
      · norm_num [App.find_nearest_keyframes, App.kfScan, abs]

/-- C7 witness: the spec example, instantiated through the theorem. -/
theorem C7_witness :
    (App.find_nearest_keyframes [0, 5, 10, 15] 4 11).1 ∈ ([0, 5, 10, 15] : List ℚ) ∧
    App.find_nearest_keyframes [0, 5, 10, 15] 4 11 = ((5 : ℚ), (10 : ℚ)) := by
  have h := C7_find_nearest_keyframes [0, 5, 10, 15] 4 11
    (by norm_num [List.pairwise_cons]) (by simp)
  exact ⟨h.1.1, h.2.2.2⟩

/-! Lemmas about colon splitting, for the time-parser characterization. -/

theorem splitColon_ne_nil : ∀ t : List Char, App.splitColon t ≠ [] := by
  intro t
  induction t with
  | nil => simp [App.splitColon]
  | cons c rest ih =>
      simp only [App.splitColon]
      split
      · simp
      · cases h : App.splitColon rest with
        | nil => simp
        | cons p ps => simp

theorem splitColon_no_colon : ∀ t : List Char, (∀ c ∈ t, ¬ c = ':') →
    App.splitColon t = [t] := by
  intro t
  induction t with
  | nil => intro _; rfl
  | cons c rest ih =>
      intro h
      have hc : ¬ c = ':' := h c (List.mem_cons_self c rest)
      have hrest := ih (fun x hx => h x (List.mem_cons_of_mem c hx))
      simp only [App.splitColon, if_neg hc, hrest]

theorem splitColon_singleton : ∀ (t p : List Char), App.splitColon t = [p] → p = t := by
  intro t
  induction t with
  | nil =>
      intro p h
      simp only [App.splitColon, List.cons.injEq] at h
      exact h.1.symm
  | cons c rest ih =>
      intro p h
      simp only [App.splitColon] at h
      split at h
      · simp only [List.cons.injEq] at h
        exact absurd h.2 (splitColon_ne_nil rest)
      · rename_i hc
        cases hr : App.splitColon rest with
        | nil => exact absurd hr (splitColon_ne_nil rest)
        | cons q qs =>
            rw [hr] at h
            simp only [List.cons.injEq] at h
            obtain ⟨h1, h2⟩ := h
            have hq : App.splitColon rest = [q] := by rw [hr, h2]
            rw [← h1, ih q hq]

theorem strIsDigit_no_colon {t : List Char} (h : App.strIsDigit t = true) :
    ∀ c ∈ t, ¬ c = ':' := by
  intro c hc he
  have h2 : App.isDigitChar c = true := by
    simp only [App.strIsDigit, Bool.and_eq_true, List.all_eq_true] at h
    exact h.2 c hc
  rw [he] at h2
  exact absurd h2 (by decide)

/-- C8 (amended): `parse_time_like` is total (never raises) and agrees
everywhere with the specification function written from the amended claim:
`none` exactly on empty or whitespace-only input, a leading dash, a
non-digit colon-separated component, four or more components, seconds >= 60
in the two- or three-component forms, or minutes >= 60 in the
three-component form (minutes are unbounded in the two-component form);
otherwise the parsed seconds of the bare-integer, MM:SS or HH:MM:SS form. -/
theorem C8_parse_matches_spec : ∀ s : List Char, App.parse_time_like s = parseTimeSpec s := by
  intro s
  unfold App.parse_time_like parseTimeSpec
  by_cases h1 : (App.stripChars s).isEmpty = true
  · simp [h1]
  by_cases h2 : (App.stripChars s).head? = some ('-')
  · simp [h1, h2]
  by_cases h3 : App.strIsDigit (App.stripChars s) = true
  · have hsp : App.splitColon (App.stripChars s) = [App.stripChars s] :=
      splitColon_no_colon _ (strIsDigit_no_colon h3)
    simp [h1, h2, h3, hsp]
  · by_cases h4 : (App.splitColon (App.stripChars s)).all App.strIsDigit = true
    · rcases hp : App.splitColon (App.stripChars s) with _ | ⟨p1, _ | ⟨p2, _ | ⟨p3, _ | ⟨p4, rest⟩⟩⟩⟩
      · exact absurd hp (splitColon_ne_nil _)
      · exfalso
        have he : p1 = App.stripChars s := splitColon_singleton _ p1 hp
        rw [hp] at h4
        simp only [List.all_cons, List.all_nil, Bool.and_true] at h4
        rw [he] at h4
        exact h3 h4
      · rw [hp] at h4
        simp [h1, h2, h3, hp, h4]
      · rw [hp] at h4
        simp [h1, h2, h3, hp, h4]
      · rw [hp] at h4
        simp [h1, h2, h3, hp, h4, Nat.succ_le_succ, List.length_cons]
    · simp [h1, h2, h3, h4]

end HomeTube
